import Mathlib

/-!
Verification of the scheduling and playback-state core of CottDAW, a
browser-based multi-track sequencer.  The definitions below are a shallow
embedding of the TypeScript source:

  - src/utils/timeHelpers.ts      (beat/second conversion, bars to beats)
  - src/stores/transportStore.ts  (transport state machine, loop region)
  - src/stores/historyStore.ts    (bounded undo/redo stacks)
  - src/stores/projectStore.ts    (track/note store, duplicateNotes, undo/redo)
  - src/audio/engine.ts           (note scheduling, event clearing, tick)
  - src/audio/recorder.ts         (offline render duration, solo/mute rule)

JS numbers are modelled as rationals.  Opaque uuid identifiers are modelled
as natural numbers drawn from a fresh-id counter threaded through the store
state (uuidv4 never collides with an existing id; the counter makes that
freshness explicit).  JSON.parse(JSON.stringify(x)) deep clones are the
identity on the pure value model.
-/

/-- Oscillator wave types, from src/types (WaveType). -/
inductive WaveType where
  | sine
  | square
  | sawtooth
  | triangle
deriving DecidableEq, Repr

/-- Filter types, from src/types (FilterType). -/
inductive FilterType where
  | lowpass
  | highpass
deriving DecidableEq, Repr

/-- ADSR envelope, from src/types (Envelope). -/
structure Envelope where
  attack : ℚ
  decay : ℚ
  sustain : ℚ
  release : ℚ
deriving DecidableEq, Repr

/-- Reverb effect parameters, from src/types (ReverbEffect). -/
structure ReverbEffect where
  wet : ℚ
deriving DecidableEq, Repr

/-- Delay effect parameters, from src/types (DelayEffect); time is a symbolic
note duration string such as 8n. -/
structure DelayEffect where
  time : String
  feedback : ℚ
  wet : ℚ
deriving DecidableEq, Repr

/-- Filter effect parameters, from src/types (FilterEffect). -/
structure FilterEffect where
  type : FilterType
  frequency : ℚ
  Q : ℚ
deriving DecidableEq, Repr

/-- Distortion effect parameters, from src/types (DistortionEffect). -/
structure DistortionEffect where
  amount : ℚ
deriving DecidableEq, Repr

/-- Per-track effects chain, from src/types (TrackEffects). -/
structure TrackEffects where
  reverb : ReverbEffect
  delay : DelayEffect
  filter : FilterEffect
  distortion : DistortionEffect
deriving DecidableEq, Repr

/-- A note on the piano roll, from src/types (Note).  The uuid string id is
modelled as a natural number. -/
structure Note where
  id : ℕ
  pitch : ℚ
  start : ℚ
  duration : ℚ
  velocity : ℚ
deriving DecidableEq, Repr

/-- A track, from src/types (Track).  The uuid string id is modelled as a
natural number. -/
structure Track where
  id : ℕ
  name : String
  color : String
  waveType : WaveType
  volume : ℚ
  pan : ℚ
  muted : Bool
  solo : Bool
  envelope : Envelope
  effects : TrackEffects
  notes : List Note
deriving DecidableEq, Repr

/-- The transport loop region, from src/types (LoopRegion).  The source field
named end is a Lean keyword, so it is called endBeat here. -/
structure LoopRegion where
  start : ℚ
  endBeat : ℚ
  enabled : Bool
deriving DecidableEq, Repr

/-! Time mapping, from src/utils/timeHelpers.ts. -/

/-- Convert beats to time in seconds: (beats / bpm) * 60. -/
def beatsToSeconds (beats bpm : ℚ) : ℚ :=
  (beats / bpm) * 60

/-- Convert seconds to beats: (seconds / 60) * bpm. -/
def secondsToBeats (seconds bpm : ℚ) : ℚ :=
  (seconds / 60) * bpm

/-- Get total beats for a given number of bars: bars * beatsPerBar. -/
def barsToBeats (bars beatsPerBar : ℚ) : ℚ :=
  bars * beatsPerBar

/-- The default track created by createDefaultTrack in
src/stores/projectStore.ts; the uuid and the palette color are parameters of
the model. -/
def createDefaultTrack (id : ℕ) (name color : String) : Track :=
  { id := id
    name := name
    color := color
    waveType := .sine
    volume := 7/10
    pan := 0
    muted := false
    solo := false
    envelope := { attack := 1/100, decay := 1/10, sustain := 7/10, release := 3/10 }
    effects :=
      { reverb := { wet := 0 }
        delay := { time := "8n", feedback := 3/10, wet := 0 }
        filter := { type := .lowpass, frequency := 20000, Q := 1 }
        distortion := { amount := 0 } }
    notes := [] }

/-! Transport state machine, from src/stores/transportStore.ts.  The store
also persists loop and metronome settings to localStorage; persistence is a
side channel outside the pure state model.  The seek action additionally
invokes the registered seekCallback with the clamped beat; the callback
re-syncs the external audio engine and does not touch this state. -/

/-- Mutable state of useTransportStore. -/
structure TransportState where
  isPlaying : Bool
  isPaused : Bool
  currentBeat : ℚ
  loop : LoopRegion
  metronomeEnabled : Bool
  metronomeVolume : ℚ
deriving DecidableEq, Repr

namespace TransportStore

/-- play action: set isPlaying true, isPaused false. -/
def play (s : TransportState) : TransportState :=
  { s with isPlaying := true, isPaused := false }

/-- pause action: set isPlaying false, isPaused true. -/
def pause (s : TransportState) : TransportState :=
  { s with isPlaying := false, isPaused := true }

/-- stop action: set isPlaying false, isPaused false, currentBeat 0. -/
def stop (s : TransportState) : TransportState :=
  { s with isPlaying := false, isPaused := false, currentBeat := 0 }

/-- togglePlay action: pause when playing, otherwise play. -/
def togglePlay (s : TransportState) : TransportState :=
  if s.isPlaying then pause s else play s

/-- setCurrentBeat action: wrap to loop.start when the loop is enabled and
the beat reached loop.end, otherwise set the beat directly. -/
def setCurrentBeat (beat : ℚ) (s : TransportState) : TransportState :=
  if s.loop.enabled ∧ s.loop.endBeat ≤ beat then
    { s with currentBeat := s.loop.start }
  else
    { s with currentBeat := beat }

/-- seek action: clamp the beat to be nonnegative and store it (the
seekCallback side channel is external to the state). -/
def seek (beat : ℚ) (s : TransportState) : TransportState :=
  { s with currentBeat := max 0 beat }

/-- setLoopEnabled action. -/
def setLoopEnabled (enabled : Bool) (s : TransportState) : TransportState :=
  { s with loop := { s.loop with enabled := enabled } }

/-- setLoopRegion action: store the smaller input as start and the larger as
end. -/
def setLoopRegion (start stop : ℚ) (s : TransportState) : TransportState :=
  { s with loop := { s.loop with start := min start stop,
                                 endBeat := max start stop } }

/-- toggleLoop action. -/
def toggleLoop (s : TransportState) : TransportState :=
  { s with loop := { s.loop with enabled := !s.loop.enabled } }

/-- toggleMetronome action. -/
def toggleMetronome (s : TransportState) : TransportState :=
  { s with metronomeEnabled := !s.metronomeEnabled }

/-- setMetronomeVolume action: clamp to the unit interval. -/
def setMetronomeVolume (volume : ℚ) (s : TransportState) : TransportState :=
  { s with metronomeVolume := max 0 (min 1 volume) }

/-- The store is created with isPlaying, isPaused false and currentBeat 0;
loop and metronome settings come from localStorage when present, so they are
parameters here. -/
def mkInitial (loop0 : LoopRegion) (me0 : Bool) (mv0 : ℚ) : TransportState :=
  { isPlaying := false
    isPaused := false
    currentBeat := 0
    loop := loop0
    metronomeEnabled := me0
    metronomeVolume := mv0 }

/-- One user-visible transport action. -/
inductive Op where
  | play
  | pause
  | stop
  | togglePlay
  | setCurrentBeat (beat : ℚ)
  | seek (beat : ℚ)
  | setLoopEnabled (enabled : Bool)
  | setLoopRegion (start stop : ℚ)
  | toggleLoop
  | toggleMetronome
  | setMetronomeVolume (volume : ℚ)

/-- Apply one transport action. -/
def step (s : TransportState) : Op → TransportState
  | .play => play s
  | .pause => pause s
  | .stop => stop s
  | .togglePlay => togglePlay s
  | .setCurrentBeat b => setCurrentBeat b s
  | .seek b => seek b s
  | .setLoopEnabled e => setLoopEnabled e s
  | .setLoopRegion a b => setLoopRegion a b s
  | .toggleLoop => toggleLoop s
  | .toggleMetronome => toggleMetronome s
  | .setMetronomeVolume v => setMetronomeVolume v s

/-- Run a sequence of transport actions. -/
def run (ops : List Op) (s : TransportState) : TransportState :=
  ops.foldl step s

theorem step_not_both (s : TransportState)
    (h : ¬(s.isPlaying = true ∧ s.isPaused = true)) (op : Op) :
    ¬((step s op).isPlaying = true ∧ (step s op).isPaused = true) := by
  cases op <;>
    simp_all [step, play, pause, stop, togglePlay, setCurrentBeat, seek,
      setLoopEnabled, setLoopRegion, toggleLoop, toggleMetronome,
      setMetronomeVolume] <;>
    split <;> simp_all

theorem run_not_both (ops : List Op) (s : TransportState)
    (h : ¬(s.isPlaying = true ∧ s.isPaused = true)) :
    ¬((run ops s).isPlaying = true ∧ (run ops s).isPaused = true) := by
  induction ops generalizing s with
  | nil => exact h
  | cons op ops ih => exact ih (step s op) (step_not_both s h op)

end TransportStore

/-- C6: setLoopRegion stores the componentwise minimum of its two arguments
as loop.start and the maximum as loop.end, so loop.start is always at most
loop.end afterwards, and loop.enabled is unchanged. -/
theorem setLoopRegion_ordered (s : TransportState) (a b : ℚ) :
    (TransportStore.setLoopRegion a b s).loop.start = min a b ∧
    (TransportStore.setLoopRegion a b s).loop.endBeat = max a b ∧
    (TransportStore.setLoopRegion a b s).loop.start ≤
      (TransportStore.setLoopRegion a b s).loop.endBeat ∧
    (TransportStore.setLoopRegion a b s).loop.enabled = s.loop.enabled := by
  refine ⟨rfl, rfl, ?_, rfl⟩
  exact min_le_max

/-- C7: play makes the transport playing and not paused without changing the
current beat; pause makes it paused and not playing preserving the beat;
stop clears both flags and resets the beat to 0; and along every action
sequence from the store's creation state the flags isPlaying and isPaused
are never simultaneously true. -/
theorem transport_state_machine (s : TransportState) (ops : List TransportStore.Op)
    (loop0 : LoopRegion) (me0 : Bool) (mv0 : ℚ) :
    (TransportStore.play s).isPlaying = true ∧
    (TransportStore.play s).isPaused = false ∧
    (TransportStore.play s).currentBeat = s.currentBeat ∧
    (TransportStore.pause s).isPlaying = false ∧
    (TransportStore.pause s).isPaused = true ∧
    (TransportStore.pause s).currentBeat = s.currentBeat ∧
    (TransportStore.stop s).isPlaying = false ∧
    (TransportStore.stop s).isPaused = false ∧
    (TransportStore.stop s).currentBeat = 0 ∧
    ¬((TransportStore.run ops (TransportStore.mkInitial loop0 me0 mv0)).isPlaying = true ∧
      (TransportStore.run ops (TransportStore.mkInitial loop0 me0 mv0)).isPaused = true) := by
  refine ⟨rfl, rfl, rfl, rfl, rfl, rfl, rfl, rfl, rfl, ?_⟩
  exact TransportStore.run_not_both ops _ (by simp [TransportStore.mkInitial])

/-- C8: beatsToSeconds agrees with the closed form beats * 60 / bpm, and
secondsToBeats inverts it exactly over exact rational arithmetic whenever
bpm lies in the valid range 40 to 240. -/
theorem beats_seconds_round_trip (b bpm : ℚ) (hb : 0 ≤ b)
    (h1 : 40 ≤ bpm) (h2 : bpm ≤ 240) :
    beatsToSeconds b bpm = b * 60 / bpm ∧
    secondsToBeats (beatsToSeconds b bpm) bpm = b := by
  have hne : bpm ≠ 0 := by positivity
  constructor
  · unfold beatsToSeconds
    ring
  · unfold beatsToSeconds secondsToBeats
    field_simp
    ring

/-- Witness for C8 at b = 3, bpm = 120. -/
theorem beats_seconds_round_trip_witness :
    beatsToSeconds 3 120 = 3 * 60 / 120 ∧
    secondsToBeats (beatsToSeconds 3 120) 120 = 3 :=
  beats_seconds_round_trip 3 120 (by norm_num) (by norm_num) (by norm_num)

/-! History manager, from src/stores/historyStore.ts.  A NotesSnapshot is a
JS Map from track id to a deep-cloned notes array; the Map is modelled as an
association list with unique keys kept in insertion order, built by mapSet
(Map.prototype.set replaces the binding in place when the key exists,
otherwise appends it). -/

/-- A snapshot entry list: track id to notes, unique keys. -/
abbrev NotesSnapshot : Type := List (ℕ × List Note)

/-- Map.prototype.set on the association-list model: replace the binding for
the key in place when present, otherwise append. -/
def mapSet (k : ℕ) (v : List Note) (m : NotesSnapshot) : NotesSnapshot :=
  match m with
  | [] => [(k, v)]
  | (k0, v0) :: rest =>
      if k0 = k then (k, v) :: rest else (k0, v0) :: mapSet k v rest

/-- Map.prototype.get on the association-list model. -/
def mapGet (k : ℕ) (m : NotesSnapshot) : Option (List Note) :=
  match m with
  | [] => none
  | (k0, v0) :: rest => if k0 = k then some v0 else mapGet k rest

/-- Build the snapshot taken by pushState (and by the undo/redo actions of
the project store): insert each track's deep-cloned notes keyed by its id,
in track order. -/
def snapOf (tracks : List Track) : NotesSnapshot :=
  tracks.foldl (fun m t => mapSet t.id t.notes m) []

namespace HistoryStore

/-- The history size cap MAX_HISTORY. -/
def maxHistory : ℕ := 50

/-- Mutable state of useHistoryStore. -/
structure HistState where
  past : List NotesSnapshot
  future : List NotesSnapshot
deriving DecidableEq

/-- The store is created with empty past and future. -/
def empty : HistState := { past := [], future := [] }

/-- pushState: append the snapshot to past, evict the oldest entry when the
cap is exceeded, and clear future. -/
def pushState (snapshot : NotesSnapshot) (s : HistState) : HistState :=
  let newPast := s.past ++ [snapshot]
  { past := if maxHistory < newPast.length then newPast.tail else newPast
    future := [] }

/-- undo: when past is nonempty, pop its last entry and return it, pushing
the supplied current snapshot (when given) onto the front of future. -/
def undoPair (currentState : Option NotesSnapshot) (s : HistState) :
    Option NotesSnapshot × HistState :=
  match s.past.getLast? with
  | none => (none, s)
  | some previousState =>
      (some previousState,
       { past := s.past.dropLast
         future := match currentState with
           | some c => c :: s.future
           | none => s.future })

/-- redo: when future is nonempty, shift its front entry and return it,
appending the supplied current snapshot (when given) to past. -/
def redoPair (currentState : Option NotesSnapshot) (s : HistState) :
    Option NotesSnapshot × HistState :=
  match s.future with
  | [] => (none, s)
  | nextState :: rest =>
      (some nextState,
       { future := rest
         past := match currentState with
           | some c => s.past ++ [c]
           | none => s.past })

/-- One history-store action with its argument. -/
inductive Op where
  | push (snapshot : NotesSnapshot)
  | undo (currentState : Option NotesSnapshot)
  | redo (currentState : Option NotesSnapshot)

/-- Apply one history action, discarding the returned snapshot. -/
def step (s : HistState) : Op → HistState
  | .push snap => pushState snap s
  | .undo cur => (undoPair cur s).2
  | .redo cur => (redoPair cur s).2

/-- Run a sequence of history actions. -/
def run (ops : List Op) (s : HistState) : HistState :=
  ops.foldl step s

/-- Size invariant maintained by every action: past and future together hold
at most maxHistory snapshots. -/
def sizeInv (s : HistState) : Prop :=
  s.past.length + s.future.length ≤ maxHistory

theorem pushState_past_of_lt (snap : NotesSnapshot) (s : HistState)
    (h : s.past.length < maxHistory) :
    (pushState snap s).past = s.past ++ [snap] := by
  unfold pushState
  have hnot : ¬ maxHistory < (s.past ++ [snap]).length := by
    simp only [List.length_append, List.length_cons, List.length_nil]
    omega
  simp only [if_neg hnot]

theorem pushState_past_of_full (snap : NotesSnapshot) (s : HistState)
    (h : s.past.length = maxHistory) :
    (pushState snap s).past = s.past.tail ++ [snap] := by
  unfold pushState
  have hyes : maxHistory < (s.past ++ [snap]).length := by
    simp only [List.length_append, List.length_cons, List.length_nil]
    omega
  simp only [if_pos hyes]
  cases hp : s.past with
  | nil =>
      rw [hp] at h
      simp [maxHistory] at h
  | cons a as => simp

theorem step_sizeInv (s : HistState) (h : sizeInv s) (op : Op) :
    sizeInv (step s op) := by
  obtain ⟨past, future⟩ := s
  cases op with
  | push snap =>
      unfold sizeInv at *
      show (pushState snap ⟨past, future⟩).past.length +
        (pushState snap ⟨past, future⟩).future.length ≤ maxHistory
      have hfut : (pushState snap ⟨past, future⟩).future = [] := rfl
      simp only at h
      rcases lt_or_eq_of_le (le_of_add_le_left h) with hlt | heq
      · rw [pushState_past_of_lt snap ⟨past, future⟩ hlt, hfut]
        simp only [List.length_append, List.length_cons, List.length_nil]
        omega
      · rw [pushState_past_of_full snap ⟨past, future⟩ heq, hfut]
        simp only [List.length_append, List.length_tail, List.length_cons,
          List.length_nil]
        unfold maxHistory at *
        omega
  | undo cur =>
      unfold sizeInv at *
      simp only at h
      rcases List.eq_nil_or_concat past with rfl | ⟨l, a, rfl⟩
      · simpa [step, undoPair] using h
      · cases cur <;>
          simp only [step, undoPair, List.concat_eq_append, List.getLast?_concat,
            List.dropLast_concat, List.length_append, List.length_cons,
            List.length_nil] at h ⊢ <;>
          unfold maxHistory at * <;> omega
  | redo cur =>
      unfold sizeInv at *
      simp only at h
      cases future with
      | nil => simpa [step, redoPair] using h
      | cons nxt rest =>
          simp only [step, redoPair]
          simp only [List.length_cons] at h
          cases cur <;>
            simp only [List.length_append, List.length_cons, List.length_nil] <;>
            unfold maxHistory at * <;> omega

theorem run_sizeInv (ops : List Op) (s : HistState) (h : sizeInv s) :
    sizeInv (run ops s) := by
  induction ops generalizing s with
  | nil => exact h
  | cons op ops ih => exact ih (step s op) (step_sizeInv s h op)

/-- Closed form for a sequence of pushes: starting from a past within the
cap, the resulting past is the suffix of the concatenated snapshot stream
holding its most recent maxHistory entries. -/
theorem run_pushes_past (L : List NotesSnapshot) (s : HistState)
    (h : s.past.length ≤ maxHistory) :
    (run (L.map Op.push) s).past =
      (s.past ++ L).drop (s.past.length + L.length - maxHistory) := by
  induction L generalizing s with
  | nil =>
      simp only [List.map_nil, run, List.foldl_nil, List.append_nil,
        List.length_nil, Nat.add_zero]
      rw [Nat.sub_eq_zero_of_le h, List.drop_zero]
  | cons snap L ih =>
      have hstep : run ((snap :: L).map Op.push) s =
          run (L.map Op.push) (pushState snap s) := rfl
      rw [hstep]
      by_cases hcap : s.past.length = maxHistory
      · have hne : s.past ≠ [] := by
          intro habs
          rw [habs] at hcap
          simp [maxHistory] at hcap
        have hpast' : (pushState snap s).past = s.past.tail ++ [snap] :=
          pushState_past_of_full snap s hcap
        obtain ⟨a, as, hcons⟩ := List.exists_cons_of_ne_nil hne
        have has : as.length + 1 = maxHistory := by
          rw [hcons] at hcap
          simpa using hcap
        have hlen' : (pushState snap s).past.length ≤ maxHistory := by
          rw [hpast', hcons]
          simp only [List.tail_cons, List.length_append, List.length_cons,
            List.length_nil]
          omega
        rw [ih (pushState snap s) hlen', hpast', hcons]
        simp only [List.tail_cons]
        have i1 : (as ++ [snap]).length + L.length - maxHistory = L.length := by
          simp only [List.length_append, List.length_cons, List.length_nil]
          omega
        have i2 : (a :: as).length + (snap :: L).length - maxHistory =
            L.length + 1 := by
          simp only [List.length_cons]
          omega
        rw [i1, i2, List.cons_append, List.drop_succ_cons]
        simp [List.append_assoc]
      · have hlt : s.past.length < maxHistory := lt_of_le_of_ne h hcap
        have hpast' : (pushState snap s).past = s.past ++ [snap] :=
          pushState_past_of_lt snap s hlt
        have hlen' : (pushState snap s).past.length ≤ maxHistory := by
          rw [hpast']
          simp only [List.length_append, List.length_cons, List.length_nil]
          omega
        rw [ih (pushState snap s) hlen', hpast']
        have i1 : (s.past ++ [snap]).length + L.length - maxHistory =
            s.past.length + (snap :: L).length - maxHistory := by
          simp only [List.length_append, List.length_cons, List.length_nil]
          omega
        rw [i1]
        simp [List.append_assoc]

end HistoryStore

/-- C5: along every action sequence from the empty history the past stack
holds at most 50 snapshots and past and future together stay within
2 * 50; a push onto a full past evicts the oldest entry from the front; and
pushing a stream of 60 snapshots from empty leaves exactly its 50 most
recent entries in past, oldest first. -/
theorem history_bounded (ops : List HistoryStore.Op) (st : HistoryStore.HistState)
    (snap : NotesSnapshot) (L : List NotesSnapshot)
    (hfull : st.past.length = 50)
    (h60 : L.length = 60) :
    (HistoryStore.run ops HistoryStore.empty).past.length ≤ 50 ∧
    (HistoryStore.run ops HistoryStore.empty).past.length +
      (HistoryStore.run ops HistoryStore.empty).future.length ≤ 2 * 50 ∧
    (HistoryStore.pushState snap st).past = st.past.tail ++ [snap] ∧
    (HistoryStore.run (L.map HistoryStore.Op.push) HistoryStore.empty).past =
      L.drop 10 := by
  have hinv : HistoryStore.sizeInv (HistoryStore.run ops HistoryStore.empty) :=
    HistoryStore.run_sizeInv ops HistoryStore.empty
      (by simp [HistoryStore.sizeInv, HistoryStore.empty])
  unfold HistoryStore.sizeInv HistoryStore.maxHistory at hinv
  refine ⟨by omega, by omega, ?_, ?_⟩
  · exact HistoryStore.pushState_past_of_full snap st hfull
  · rw [HistoryStore.run_pushes_past L HistoryStore.empty
      (by simp [HistoryStore.empty, HistoryStore.maxHistory])]
    simp [HistoryStore.empty, HistoryStore.maxHistory, h60]

/-- Witness for C5 with a full past of 50 copies of the empty snapshot and a
stream of 60 empty snapshots. -/
theorem history_bounded_witness :
    (HistoryStore.run [] HistoryStore.empty).past.length ≤ 50 ∧
    (HistoryStore.run [] HistoryStore.empty).past.length +
      (HistoryStore.run [] HistoryStore.empty).future.length ≤ 2 * 50 ∧
    (HistoryStore.pushState []
        { past := List.replicate 50 ([] : NotesSnapshot), future := [] }).past =
      (List.replicate 50 ([] : NotesSnapshot)).tail ++ [[]] ∧
    (HistoryStore.run ((List.replicate 60 ([] : NotesSnapshot)).map
        HistoryStore.Op.push) HistoryStore.empty).past =
      (List.replicate 60 ([] : NotesSnapshot)).drop 10 :=
  history_bounded [] { past := List.replicate 50 [], future := [] } []
    (List.replicate 60 []) (by simp) (by simp)

/-! Track and note store, from src/stores/projectStore.ts.  Only the
operations the claims are about are embedded: addNote, duplicateNotes and
the history-coupled undo/redo.  The uuidv4 identifier supply is modelled as
the nextId counter; a freshly drawn id never equals an existing one, which
the freshness hypothesis on nextId makes explicit. -/

namespace ProjectStore

/-- State of useProjectStore relevant to notes and history: the track list,
the fresh-id supply, and the coupled useHistoryStore state. -/
structure ProjectState where
  tracks : List Track
  nextId : ℕ
  hist : HistoryStore.HistState
deriving DecidableEq

/-- addNote: append a note with a fresh id to the addressed track. -/
def addNote (trackId : ℕ) (pitch start duration velocity : ℚ)
    (s : ProjectState) : ProjectState :=
  let newNote : Note :=
    { id := s.nextId, pitch := pitch, start := start,
      duration := duration, velocity := velocity }
  { s with
    nextId := s.nextId + 1
    tracks := s.tracks.map (fun t =>
      if t.id == trackId then { t with notes := t.notes ++ [newNote] } else t) }

/-- Give each note of the list a fresh id drawn in order from the counter,
keeping every other field: the copies built by duplicateNotes. -/
def mkCopies : ℕ → List Note → List Note
  | _, [] => []
  | k, n :: ns => { n with id := k } :: mkCopies (k + 1) ns

/-- duplicateNotes: find the addressed track, copy each of its notes whose
id is in noteIds with a fresh id (same position, the user will drag them),
append the copies to the track, and return the new ids. -/
def duplicateNotes (trackId : ℕ) (noteIds : List ℕ) (s : ProjectState) :
    List ℕ × ProjectState :=
  match s.tracks.find? (fun t => t.id == trackId) with
  | none => ([], s)
  | some track =>
      let notesToDuplicate := track.notes.filter (fun n => noteIds.contains n.id)
      let newNotes := mkCopies s.nextId notesToDuplicate
      (newNotes.map Note.id,
       { s with
         nextId := s.nextId + newNotes.length
         tracks := s.tracks.map (fun t =>
           if t.id == trackId then { t with notes := t.notes ++ newNotes } else t) })

/-- saveToHistory: push the snapshot of the current tracks onto the history
past stack. -/
def saveToHistory (s : ProjectState) : ProjectState :=
  { s with hist := HistoryStore.pushState (snapOf s.tracks) s.hist }

/-- Rebuild the per-track note arrays from a snapshot, leaving every track
whose id the snapshot does not hold, and all non-note fields, untouched:
the application step of the store undo/redo actions. -/
def applySnap (snap : NotesSnapshot) (tracks : List Track) : List Track :=
  tracks.map (fun t =>
    match mapGet t.id snap with
    | some ns => { t with notes := ns }
    | none => t)

/-- undo action of useProjectStore: when history allows it, snapshot the
current tracks, pop the previous snapshot (handing the current one to the
history store for redo), and apply it. -/
def undo (s : ProjectState) : ProjectState :=
  if s.hist.past.length = 0 then s
  else
    let currentSnapshot := snapOf s.tracks
    match HistoryStore.undoPair (some currentSnapshot) s.hist with
    | (none, h1) => { s with hist := h1 }
    | (some previousSnapshot, h1) =>
        { s with tracks := applySnap previousSnapshot s.tracks, hist := h1 }

/-- redo action of useProjectStore, symmetric to undo. -/
def redo (s : ProjectState) : ProjectState :=
  if s.hist.future.length = 0 then s
  else
    let currentSnapshot := snapOf s.tracks
    match HistoryStore.redoPair (some currentSnapshot) s.hist with
    | (none, h1) => { s with hist := h1 }
    | (some nextSnapshot, h1) =>
        { s with tracks := applySnap nextSnapshot s.tracks, hist := h1 }

theorem mapSet_append_of_not_mem (k : ℕ) (v : List Note) (m : NotesSnapshot)
    (h : ∀ p ∈ m, p.1 ≠ k) : mapSet k v m = m ++ [(k, v)] := by
  induction m with
  | nil => rfl
  | cons p rest ih =>
      obtain ⟨k0, v0⟩ := p
      have hk0 : k0 ≠ k := h (k0, v0) (by simp)
      simp only [mapSet, if_neg hk0, List.cons_append, List.cons.injEq, true_and]
      exact ih (fun q hq => h q (by simp [hq]))

theorem snapOf_eq_map (T : List Track) (hnd : (T.map Track.id).Nodup) :
    snapOf T = T.map (fun t => (t.id, t.notes)) := by
  suffices hgen : ∀ (m : NotesSnapshot), (∀ t ∈ T, ∀ p ∈ m, p.1 ≠ t.id) →
      T.foldl (fun m t => mapSet t.id t.notes m) m =
        m ++ T.map (fun t => (t.id, t.notes)) by
    simpa [snapOf] using hgen [] (by simp)
  induction T with
  | nil => intro m _; simp
  | cons t T ih =>
      intro m hm
      have hnd' : (T.map Track.id).Nodup := (List.nodup_cons.mp hnd).2
      have hts : t.id ∉ T.map Track.id := (List.nodup_cons.mp hnd).1
      have hset : mapSet t.id t.notes m = m ++ [(t.id, t.notes)] :=
        mapSet_append_of_not_mem t.id t.notes m
          (fun p hp => hm t (by simp) p hp)
      simp only [List.foldl_cons, hset]
      rw [ih hnd' (m ++ [(t.id, t.notes)]) ?_]
      · simp
      · intro u hu p hp
        rcases List.mem_append.mp hp with hpm | hps
        · exact hm u (by simp [hu]) p hpm
        · simp only [List.mem_singleton] at hps
          subst hps
          intro habs
          simp only at habs
          exact hts (by rw [habs]; exact List.mem_map_of_mem Track.id hu)

theorem mapGet_snapOf (T : List Track) (hnd : (T.map Track.id).Nodup)
    (t : Track) (ht : t ∈ T) : mapGet t.id (snapOf T) = some t.notes := by
  rw [snapOf_eq_map T hnd]
  induction T with
  | nil => simp at ht
  | cons u T ih =>
      rcases List.mem_cons.mp ht with rfl | htT
      · simp [mapGet]
      · have hnd' : (T.map Track.id).Nodup := (List.nodup_cons.mp hnd).2
        have hne : u.id ≠ t.id := by
          intro habs
          exact (List.nodup_cons.mp hnd).1
            (habs ▸ List.mem_map_of_mem Track.id htT)
        simp only [List.map_cons, mapGet, if_neg hne]
        exact ih hnd' htT

theorem applySnap_snapOf_applySnap (T : List Track)
    (hnd : (T.map Track.id).Nodup) (sn : NotesSnapshot) :
    applySnap (snapOf T) (applySnap sn T) = T := by
  unfold applySnap
  rw [List.map_map]
  conv_rhs => rw [← List.map_id T]
  refine List.map_congr_left ?_
  intro t ht
  have hid : (match mapGet t.id sn with
      | some ns => { t with notes := ns }
      | none => t).id = t.id := by
    cases mapGet t.id sn <;> rfl
  simp only [Function.comp_apply, List.map_id, id_eq]
  cases hsn : mapGet t.id sn with
  | none =>
      simp only [hsn]
      rw [mapGet_snapOf T hnd t ht]
  | some ns =>
      simp only [hsn]
      rw [show ({ t with notes := ns } : Track).id = t.id from rfl,
        mapGet_snapOf T hnd t ht]

end ProjectStore

/-- Concrete track used by the history scenario: default track with id 1. -/
def c4track : Track := createDefaultTrack 1 "Track 1" "#FF6B6B"

/-- Scenario state S0: one empty track, empty history. -/
def c4s0 : ProjectStore.ProjectState :=
  { tracks := [c4track], nextId := 2, hist := HistoryStore.empty }

/-- Scenario state S1: S0 after an undoable edit adding one note. -/
def c4s1 : ProjectStore.ProjectState :=
  ProjectStore.addNote 1 60 0 1 1 (ProjectStore.saveToHistory c4s0)

/-- Scenario state S2: S1 after an undoable edit adding a second note. -/
def c4s2 : ProjectStore.ProjectState :=
  ProjectStore.addNote 1 64 1 1 1 (ProjectStore.saveToHistory c4s1)

/-- C4: with a nonempty past and distinct track ids, undo followed by redo
(each snapshotting the then-current state, as the store actions do) restores
the track list exactly; and in the concrete scenario of two undoable edits
from S0 through S1 to S2, two undos show S1's then S0's note arrays and two
redos return to S2's. -/
theorem undo_redo_roundtrip (s : ProjectStore.ProjectState)
    (hpast : s.hist.past ≠ [])
    (hnd : (s.tracks.map Track.id).Nodup) :
    (ProjectStore.redo (ProjectStore.undo s)).tracks = s.tracks ∧
    (ProjectStore.undo c4s2).tracks.map Track.notes =
      c4s1.tracks.map Track.notes ∧
    (ProjectStore.undo (ProjectStore.undo c4s2)).tracks.map Track.notes =
      c4s0.tracks.map Track.notes ∧
    (ProjectStore.redo (ProjectStore.redo
        (ProjectStore.undo (ProjectStore.undo c4s2)))).tracks.map Track.notes =
      c4s2.tracks.map Track.notes := by
  refine ⟨?_, by decide, by decide, by decide⟩
  obtain ⟨l, a, hl⟩ : ∃ l a, s.hist.past = l ++ [a] := by
    rcases List.eq_nil_or_concat s.hist.past with h | ⟨l, a, h⟩
    · exact absurd h hpast
    · exact ⟨l, a, by simpa [List.concat_eq_append] using h⟩
  have hlen : ¬ s.hist.past.length = 0 := by simp [hl]
  have hundo : ProjectStore.undo s =
      { s with tracks := ProjectStore.applySnap a s.tracks,
               hist := { past := l, future := snapOf s.tracks :: s.hist.future } } := by
    unfold ProjectStore.undo
    rw [if_neg hlen]
    unfold HistoryStore.undoPair
    rw [hl, List.getLast?_concat]
    simp [List.dropLast_concat, hl]
  have hredo : (ProjectStore.redo (ProjectStore.undo s)).tracks =
      ProjectStore.applySnap (snapOf s.tracks)
        (ProjectStore.applySnap a s.tracks) := by
    rw [hundo]
    unfold ProjectStore.redo
    simp [HistoryStore.redoPair]
  rw [hredo]
  exact ProjectStore.applySnap_snapOf_applySnap s.tracks hnd a

/-- Witness for C4 at the scenario state S2 (two past snapshots, one track). -/
theorem undo_redo_roundtrip_witness :
    (ProjectStore.redo (ProjectStore.undo c4s2)).tracks = c4s2.tracks ∧
    (ProjectStore.undo c4s2).tracks.map Track.notes =
      c4s1.tracks.map Track.notes ∧
    (ProjectStore.undo (ProjectStore.undo c4s2)).tracks.map Track.notes =
      c4s0.tracks.map Track.notes ∧
    (ProjectStore.redo (ProjectStore.redo
        (ProjectStore.undo (ProjectStore.undo c4s2)))).tracks.map Track.notes =
      c4s2.tracks.map Track.notes :=
  undo_redo_roundtrip c4s2 (by decide) (by decide)

namespace ProjectStore

theorem mkCopies_length (k : ℕ) (ns : List Note) :
    (mkCopies k ns).length = ns.length := by
  induction ns generalizing k with
  | nil => rfl
  | cons n ns ih => simp [mkCopies, ih]

theorem mkCopies_map_id (k : ℕ) (ns : List Note) :
    (mkCopies k ns).map Note.id = List.range' k ns.length := by
  induction ns generalizing k with
  | nil => rfl
  | cons n ns ih => simp [mkCopies, List.range', ih]

theorem mkCopies_zip (k : ℕ) (ns : List Note) :
    (((mkCopies k ns).map Note.id).zip ns).map
        (fun p => { p.2 with id := p.1 }) = mkCopies k ns := by
  induction ns generalizing k with
  | nil => rfl
  | cons n ns ih => simp [mkCopies, ih]

end ProjectStore


namespace ProjectStore

/-- The per-track update performed by duplicateNotes: append the copies to
the addressed track, leave every other track alone. -/
def dupApply (trackId : ℕ) (newNotes : List Note) (t : Track) : Track :=
  if t.id == trackId then { t with notes := t.notes ++ newNotes } else t

theorem duplicateNotes_eq (s : ProjectState) (trackId : ℕ)
    (noteIds : List ℕ) (tr : Track)
    (hfind : s.tracks.find? (fun t => t.id == trackId) = some tr) :
    duplicateNotes trackId noteIds s =
      ((mkCopies s.nextId
          (tr.notes.filter (fun n => noteIds.contains n.id))).map Note.id,
       { s with
         nextId := s.nextId +
           (mkCopies s.nextId
             (tr.notes.filter (fun n => noteIds.contains n.id))).length
         tracks := s.tracks.map (dupApply trackId
           (mkCopies s.nextId
             (tr.notes.filter (fun n => noteIds.contains n.id)))) }) := by
  unfold duplicateNotes dupApply
  rw [hfind]

theorem dupApply_eq_append (trackId : ℕ) (newNotes : List Note) (t : Track)
    (h : (t.id == trackId) = true) :
    dupApply trackId newNotes t = { t with notes := t.notes ++ newNotes } := by
  unfold dupApply
  rw [if_pos h]

theorem dupApply_eq_self (trackId : ℕ) (newNotes : List Note) (t : Track)
    (h : (t.id == trackId) = false) : dupApply trackId newNotes t = t := by
  unfold dupApply
  rw [h]
  simp

end ProjectStore

/-- C2 amended: when the addressed track exists and every stored note id is
below the fresh-id supply, duplicateNotes returns one fresh id per note of
the track whose id is listed in noteIds, all distinct and colliding with no
existing note id; the addressed track keeps its original notes and gains,
appended after them, one copy per matched note that agrees with its original
on pitch, start, duration and velocity and carries the corresponding
returned id; the copies and the returned ids follow the track's note order
(insertion order), not the order of the noteIds argument; all other tracks
are untouched. -/
theorem duplicateNotes_spec (s : ProjectStore.ProjectState) (trackId : ℕ)
    (noteIds : List ℕ) (tr : Track)
    (hfind : s.tracks.find? (fun t => t.id == trackId) = some tr)
    (hfresh : ∀ t ∈ s.tracks, ∀ n ∈ t.notes, n.id < s.nextId) :
    (ProjectStore.duplicateNotes trackId noteIds s).1.length =
      (tr.notes.filter (fun n => noteIds.contains n.id)).length ∧
    (ProjectStore.duplicateNotes trackId noteIds s).1.Nodup ∧
    (∀ i ∈ (ProjectStore.duplicateNotes trackId noteIds s).1,
      ∀ t ∈ s.tracks, ∀ n ∈ t.notes, i ≠ n.id) ∧
    (∃ tr2 ∈ (ProjectStore.duplicateNotes trackId noteIds s).2.tracks,
      tr2.id = tr.id ∧
      tr2.notes = tr.notes ++
        (((ProjectStore.duplicateNotes trackId noteIds s).1.zip
            (tr.notes.filter (fun n => noteIds.contains n.id))).map
          (fun p => { p.2 with id := p.1 }))) ∧
    (∀ t ∈ s.tracks, t.id ≠ trackId →
      t ∈ (ProjectStore.duplicateNotes trackId noteIds s).2.tracks) := by
  have htr : tr ∈ s.tracks := List.mem_of_find?_eq_some hfind
  have htrid := List.find?_some hfind
  simp only [ProjectStore.duplicateNotes_eq s trackId noteIds tr hfind]
  refine ⟨?_, ?_, ?_, ?_, ?_⟩
  · rw [List.length_map, ProjectStore.mkCopies_length]
  · rw [ProjectStore.mkCopies_map_id]
    exact List.nodup_range' s.nextId _
  · intro i hi t ht n hn
    rw [ProjectStore.mkCopies_map_id, List.mem_range'_1] at hi
    have := hfresh t ht n hn
    omega
  · have hmem := List.mem_map_of_mem (ProjectStore.dupApply trackId
        (ProjectStore.mkCopies s.nextId
          (tr.notes.filter (fun n => noteIds.contains n.id)))) htr
    rw [ProjectStore.dupApply_eq_append _ _ _ htrid] at hmem
    exact ⟨_, hmem, rfl, by rw [ProjectStore.mkCopies_zip]⟩
  · intro t ht hne
    have hfalse : (t.id == trackId) = false := by
      simp [hne]
    have hmem := List.mem_map_of_mem (ProjectStore.dupApply trackId
        (ProjectStore.mkCopies s.nextId
          (tr.notes.filter (fun n => noteIds.contains n.id)))) ht
    rw [ProjectStore.dupApply_eq_self _ _ _ hfalse] at hmem
    exact hmem

/-- Concrete note with id 1, pitch 60, used by the duplicateNotes claim. -/
def c2note1 : Note := { id := 1, pitch := 60, start := 0, duration := 1, velocity := 1 }

/-- Concrete note with id 2, pitch 61, used by the duplicateNotes claim. -/
def c2note2 : Note := { id := 2, pitch := 61, start := 0, duration := 1, velocity := 1 }

/-- Concrete track with id 0 holding the two notes above, in that order. -/
def c2track : Track := { createDefaultTrack 0 "Track 1" "#FF6B6B" with notes := [c2note1, c2note2] }

/-- Concrete project state around c2track with fresh-id supply 3. -/
def c2state : ProjectStore.ProjectState :=
  { tracks := [c2track], nextId := 3, hist := HistoryStore.empty }

/-- Witness for the amended C2 at c2state, duplicating the note with id 1. -/
theorem duplicateNotes_spec_witness :
    (ProjectStore.duplicateNotes 0 [1] c2state).1.length =
      (c2track.notes.filter (fun n => [1].contains n.id)).length ∧
    (ProjectStore.duplicateNotes 0 [1] c2state).1.Nodup ∧
    (∀ i ∈ (ProjectStore.duplicateNotes 0 [1] c2state).1,
      ∀ t ∈ c2state.tracks, ∀ n ∈ t.notes, i ≠ n.id) ∧
    (∃ tr2 ∈ (ProjectStore.duplicateNotes 0 [1] c2state).2.tracks,
      tr2.id = c2track.id ∧
      tr2.notes = c2track.notes ++
        (((ProjectStore.duplicateNotes 0 [1] c2state).1.zip
            (c2track.notes.filter (fun n => [1].contains n.id))).map
          (fun p => { p.2 with id := p.1 }))) ∧
    (∀ t ∈ c2state.tracks, t.id ≠ 0 →
      t ∈ (ProjectStore.duplicateNotes 0 [1] c2state).2.tracks) :=
  duplicateNotes_spec c2state 0 [1] c2track rfl (by decide)

/-- C2 counterexample to the claim as stated: asking duplicateNotes for the
ids in the order 2, 1 returns the fresh ids 3, 4 whose copies follow the
track's note order, so the first returned id 3 names a copy of the note
with id 1 (pitch 60) and not of the first requested note id 2 (pitch 61):
the returned ids are not in the relative order of the noteIds argument. -/
theorem duplicateNotes_order_counterexample :
    ([2, 1].all (fun i => (c2track.notes.map Note.id).contains i)) = true ∧
    (ProjectStore.duplicateNotes 0 [2, 1] c2state).1 = [3, 4] ∧
    (ProjectStore.duplicateNotes 0 [2, 1] c2state).2.tracks.map
        (fun t => t.notes.map (fun n => (n.id, n.pitch))) =
      [[(1, 60), (2, 61), (3, 60), (4, 61)]] ∧
    (c2track.notes.find? (fun n => n.id == 2)).map Note.pitch = some 61 ∧
    (61 : ℚ) ≠ 60 := by
  refine ⟨by decide, by decide, by decide, by decide, by norm_num⟩

/-! Realtime scheduler, from src/audio/engine.ts.  The Tone.js transport is
the timed-dispatch backend: transport.schedule and transport.scheduleRepeat
hand back event ids that the module-level scheduledEvents array records, and
transport.clear(id) retracts one pending event.  The registry below models
the transport's pending event set as an association list from event id to
event, ids drawn from a counter.  A trigger event carries the scheduled
note's pitch, absolute start time and duration in seconds, and velocity; the
frequency actually passed on, midiToFrequency(pitch) = 440 * 2^((pitch -
69) / 12), is computed inside the excluded voice capability boundary and is
irrational, so the event records the pitch it is derived from. -/

namespace AudioEngine

/-- The active track set of scheduleNotes: a track plays unless it is muted,
or some track has solo enabled and this one does not. -/
def engineActiveTracks (tracks : List Track) : List Track :=
  let hasSolo := tracks.any (fun t => t.solo)
  tracks.filter (fun t => !t.muted && !(hasSolo && !t.solo))

/-- One pending timed event. -/
inductive Event where
  | trigger (trackId : ℕ) (pitch startTime durationSec velocity : ℚ)
  | tick
deriving DecidableEq, Repr

/-- The triggers scheduleNotes registers for one track's notes: start and
duration converted by beatsToSeconds at the given bpm. -/
def trackEvents (bpm : ℚ) (t : Track) : List Event :=
  t.notes.map (fun n =>
    Event.trigger t.id n.pitch (beatsToSeconds n.start bpm)
      (beatsToSeconds n.duration bpm) n.velocity)

/-- Every event one scheduleNotes call registers: the triggers of the active
tracks in order, then the repeating beat-update tick. -/
def mkScheduledEvents (tracks : List Track) (bpm : ℚ) : List Event :=
  (engineActiveTracks tracks).flatMap (trackEvents bpm) ++ [Event.tick]

/-- Module-level mutable state of engine.ts plus the transport backend: the
pending event registry, the recorded scheduledEvents ids, the id supply, and
the transport bpm and loop configuration. -/
structure EngineState where
  nextId : ℕ
  registry : List (ℕ × Event)
  scheduledEvents : List ℕ
  bpm : ℚ
  loopOn : Bool
  loopStartSec : ℚ
  loopEndSec : ℚ
deriving DecidableEq, Repr

/-- Engine state at module load: nothing pending, transport defaults. -/
def engineInit : EngineState :=
  { nextId := 0, registry := [], scheduledEvents := [], bpm := 120,
    loopOn := false, loopStartSec := 0, loopEndSec := 0 }

/-- clearScheduledNotes: retract every recorded pending event from the
transport and empty the scheduledEvents array. -/
def clearScheduledNotes (s : EngineState) : EngineState :=
  { s with
    registry := s.registry.filter (fun p => !(s.scheduledEvents.contains p.1))
    scheduledEvents := [] }

/-- Register one event with the transport and record its id. -/
def register1 (ev : Event) (s : EngineState) : EngineState :=
  { s with
    nextId := s.nextId + 1
    registry := s.registry ++ [(s.nextId, ev)]
    scheduledEvents := s.scheduledEvents ++ [s.nextId] }

/-- Register a list of events in order. -/
def registerEvents (evs : List Event) (s : EngineState) : EngineState :=
  evs.foldl (fun s ev => register1 ev s) s

/-- The transport loop configuration scheduleNotes installs: when the loop
region is enabled, loop over its bounds converted to seconds. -/
def setLoopCfg (loop : LoopRegion) (bpm : ℚ) (s : EngineState) : EngineState :=
  if loop.enabled then
    { s with loopOn := true
             loopStartSec := beatsToSeconds loop.start bpm
             loopEndSec := beatsToSeconds loop.endBeat bpm }
  else
    { s with loopOn := false }

/-- scheduleNotes: clear the previous schedule, set the bpm, register the
active tracks' note triggers, configure the loop, and register the
beat-update tick.  Synth creation and parameter updates go to the excluded
voice capability and leave this state unchanged. -/
def scheduleNotes (tracks : List Track) (loop : LoopRegion) (bpm : ℚ)
    (s : EngineState) : EngineState :=
  let s1 := clearScheduledNotes s
  let s2 := { s1 with bpm := bpm }
  let s3 := registerEvents ((engineActiveTracks tracks).flatMap (trackEvents bpm)) s2
  let s4 := setLoopCfg loop bpm s3
  register1 Event.tick s4

/-- Tag a list of events with consecutive ids from a starting counter. -/
def tagWithIds : ℕ → List Event → List (ℕ × Event)
  | _, [] => []
  | k, e :: es => (k, e) :: tagWithIds (k + 1) es

/-- The engine operations a caller can interleave. -/
inductive Op where
  | schedule (tracks : List Track) (loop : LoopRegion) (bpm : ℚ)
  | clear

/-- Apply one engine operation. -/
def step (s : EngineState) : Op → EngineState
  | .schedule tr lp bpm => scheduleNotes tr lp bpm s
  | .clear => clearScheduledNotes s

/-- Run a sequence of engine operations. -/
def run (ops : List Op) (s : EngineState) : EngineState :=
  ops.foldl step s

/-- The ids recorded in scheduledEvents are exactly the pending registry
ids, in order. -/
def idsInv (s : EngineState) : Prop :=
  s.registry.map Prod.fst = s.scheduledEvents

theorem registerEvents_closed (evs : List Event) (s : EngineState) :
    (registerEvents evs s).registry = s.registry ++ tagWithIds s.nextId evs ∧
    (registerEvents evs s).scheduledEvents =
      s.scheduledEvents ++ List.range' s.nextId evs.length ∧
    (registerEvents evs s).nextId = s.nextId + evs.length ∧
    (registerEvents evs s).bpm = s.bpm ∧
    (registerEvents evs s).loopOn = s.loopOn ∧
    (registerEvents evs s).loopStartSec = s.loopStartSec ∧
    (registerEvents evs s).loopEndSec = s.loopEndSec := by
  induction evs generalizing s with
  | nil => simp [registerEvents, tagWithIds]
  | cons e es ih =>
      have hstep : registerEvents (e :: es) s = registerEvents es (register1 e s) := rfl
      obtain ⟨h1, h2, h3, h4, h5, h6, h7⟩ := ih (register1 e s)
      have hr : (register1 e s).registry = s.registry ++ [(s.nextId, e)] := rfl
      have hsch : (register1 e s).scheduledEvents =
        s.scheduledEvents ++ [s.nextId] := rfl
      have hn : (register1 e s).nextId = s.nextId + 1 := rfl
      refine ⟨?_, ?_, ?_, ?_, ?_, ?_, ?_⟩
      · rw [hstep, h1, hr, hn, List.append_assoc]
        rfl
      · rw [hstep, h2, hsch, hn, List.append_assoc, List.length_cons,
          List.range'_succ]
        rfl
      · rw [hstep, h3, hn, List.length_cons]
        omega
      · rw [hstep, h4]
        rfl
      · rw [hstep, h5]
        rfl
      · rw [hstep, h6]
        rfl
      · rw [hstep, h7]
        rfl

theorem filter_not_contains_self (reg : List (ℕ × Event)) (ids : List ℕ)
    (h : ∀ p ∈ reg, p.1 ∈ ids) :
    reg.filter (fun p => !(ids.contains p.1)) = [] := by
  induction reg with
  | nil => rfl
  | cons p rest ih =>
      have hp : p.1 ∈ ids := h p (by simp)
      have hc : (ids.contains p.1) = true := List.elem_eq_true_of_mem hp
      simp only [List.filter_cons, hc, Bool.not_true, Bool.false_eq_true,
        if_false]
      exact ih (fun q hq => h q (by simp [hq]))

theorem clear_of_idsInv (s : EngineState) (h : idsInv s) :
    (clearScheduledNotes s).registry = [] ∧
    (clearScheduledNotes s).scheduledEvents = [] := by
  refine ⟨?_, rfl⟩
  unfold clearScheduledNotes
  refine filter_not_contains_self s.registry s.scheduledEvents ?_
  intro p hp
  rw [← h]
  exact List.mem_map_of_mem Prod.fst hp

theorem tagWithIds_append (k : ℕ) (xs ys : List Event) :
    tagWithIds k (xs ++ ys) = tagWithIds k xs ++ tagWithIds (k + xs.length) ys := by
  induction xs generalizing k with
  | nil => simp [tagWithIds]
  | cons x xs ih =>
      have h1 : (x :: xs) ++ ys = x :: (xs ++ ys) := rfl
      rw [h1]
      show (k, x) :: tagWithIds (k + 1) (xs ++ ys) =
        ((k, x) :: tagWithIds (k + 1) xs) ++ tagWithIds (k + (xs.length + 1)) ys
      rw [ih (k + 1), List.cons_append]
      have harith : k + 1 + xs.length = k + (xs.length + 1) := by omega
      rw [harith]

theorem tagWithIds_map_fst (k : ℕ) (evs : List Event) :
    (tagWithIds k evs).map Prod.fst = List.range' k evs.length := by
  induction evs generalizing k with
  | nil => rfl
  | cons e es ih => simp [tagWithIds, ih, List.range'_succ]

theorem scheduleNotes_registry (tracks : List Track) (loop : LoopRegion)
    (bpm : ℚ) (s : EngineState) (h : idsInv s) :
    (scheduleNotes tracks loop bpm s).registry =
      tagWithIds s.nextId (mkScheduledEvents tracks bpm) ∧
    idsInv (scheduleNotes tracks loop bpm s) := by
  obtain ⟨hr, hs⟩ := clear_of_idsInv s h
  obtain ⟨g1, g2, g3, _, _, _, _⟩ := registerEvents_closed
    ((engineActiveTracks tracks).flatMap (trackEvents bpm))
    ({ clearScheduledNotes s with bpm := bpm })
  have h2r : ({ clearScheduledNotes s with bpm := bpm } : EngineState).registry
      = [] := hr
  have h2s : ({ clearScheduledNotes s with bpm := bpm } : EngineState).scheduledEvents
      = [] := hs
  have h2n : ({ clearScheduledNotes s with bpm := bpm } : EngineState).nextId
      = s.nextId := rfl
  rw [h2r] at g1
  rw [h2n] at g1 g3
  rw [h2s] at g2
  simp only [List.nil_append] at g1 g2
  have hmid : ∀ u : EngineState,
      (setLoopCfg loop bpm u).registry = u.registry ∧
      (setLoopCfg loop bpm u).scheduledEvents = u.scheduledEvents ∧
      (setLoopCfg loop bpm u).nextId = u.nextId := by
    intro u
    unfold setLoopCfg
    split <;> exact ⟨rfl, rfl, rfl⟩
  have hreg1 : ∀ (u : EngineState) (ev : Event),
      (register1 ev u).registry = u.registry ++ [(u.nextId, ev)] := fun _ _ => rfl
  have hsch1 : ∀ (u : EngineState) (ev : Event),
      (register1 ev u).scheduledEvents = u.scheduledEvents ++ [u.nextId] :=
    fun _ _ => rfl
  have hfin : scheduleNotes tracks loop bpm s =
      register1 Event.tick (setLoopCfg loop bpm
        (registerEvents ((engineActiveTracks tracks).flatMap (trackEvents bpm))
          { clearScheduledNotes s with bpm := bpm })) := rfl
  constructor
  · rw [hfin, hreg1, (hmid _).1, (hmid _).2.2, g1, g3]
    simp only [mkScheduledEvents]
    rw [tagWithIds_append]
    rfl
  · unfold idsInv
    rw [hfin, hreg1, hsch1, List.map_append, (hmid _).1, (hmid _).2.1,
      (hmid _).2.2, g1, g2, g3, tagWithIds_map_fst]
    rfl

end AudioEngine

namespace AudioEngine

theorem step_idsInv (s : EngineState) (h : idsInv s) (op : Op) :
    idsInv (step s op) := by
  cases op with
  | schedule tr lp bpm => exact (scheduleNotes_registry tr lp bpm s h).2
  | clear =>
      obtain ⟨hr, hs⟩ := clear_of_idsInv s h
      unfold idsInv
      show (clearScheduledNotes s).registry.map Prod.fst =
        (clearScheduledNotes s).scheduledEvents
      rw [hr, hs]
      rfl

theorem run_idsInv (ops : List Op) : idsInv (run ops engineInit) := by
  suffices hgen : ∀ s, idsInv s → idsInv (run ops s) from hgen engineInit rfl
  induction ops with
  | nil => exact fun s h => h
  | cons op ops ih => exact fun s h => ih (step s op) (step_idsInv s h op)

theorem run_append_single (ops : List Op) (op : Op) (s : EngineState) :
    run (ops ++ [op]) s = step (run ops s) op := by
  unfold run
  rw [List.foldl_append]
  rfl

theorem clear_noop (u : EngineState) (h : u.scheduledEvents = []) :
    clearScheduledNotes u = u := by
  obtain ⟨n, reg, sch, b, lo, ls, le⟩ := u
  simp only at h
  subst h
  unfold clearScheduledNotes
  simp only
  rw [show reg.filter (fun p => !(([] : List ℕ).contains p.1)) = reg from
    List.filter_eq_self.mpr (fun a _ => rfl)]

end AudioEngine

/-- C9: running any operation sequence from the engine's start state, a
scheduleNotes call leaves pending exactly the events it itself registered
(the previous schedule fully retracted first), a clearScheduledNotes call
leaves nothing pending, clearing twice equals clearing once, and clearing
with no recorded events pending is a no-op. -/
theorem schedule_clears_previous (ops : List AudioEngine.Op)
    (tracks : List Track) (lp : LoopRegion) (bpm : ℚ)
    (s : AudioEngine.EngineState) :
    (AudioEngine.run (ops ++ [AudioEngine.Op.schedule tracks lp bpm])
        AudioEngine.engineInit).registry =
      AudioEngine.tagWithIds
        (AudioEngine.run ops AudioEngine.engineInit).nextId
        (AudioEngine.mkScheduledEvents tracks bpm) ∧
    (AudioEngine.run (ops ++ [AudioEngine.Op.clear])
        AudioEngine.engineInit).registry = [] ∧
    AudioEngine.clearScheduledNotes (AudioEngine.clearScheduledNotes s) =
      AudioEngine.clearScheduledNotes s ∧
    (s.scheduledEvents = [] → AudioEngine.clearScheduledNotes s = s) := by
  refine ⟨?_, ?_, AudioEngine.clear_noop _ rfl, fun hemp =>
    AudioEngine.clear_noop s hemp⟩
  · rw [AudioEngine.run_append_single]
    exact (AudioEngine.scheduleNotes_registry tracks lp bpm _
      (AudioEngine.run_idsInv ops)).1
  · rw [AudioEngine.run_append_single]
    exact (AudioEngine.clear_of_idsInv _ (AudioEngine.run_idsInv ops)).1

/-- Witness for C9 with the empty operation history, no tracks, and the
start state. -/
theorem schedule_clears_previous_witness :
    (AudioEngine.run ([] ++ [AudioEngine.Op.schedule []
        { start := 0, endBeat := 16, enabled := false } 120])
        AudioEngine.engineInit).registry =
      AudioEngine.tagWithIds
        (AudioEngine.run [] AudioEngine.engineInit).nextId
        (AudioEngine.mkScheduledEvents [] 120) ∧
    (AudioEngine.run ([] ++ [AudioEngine.Op.clear])
        AudioEngine.engineInit).registry = [] ∧
    AudioEngine.clearScheduledNotes
        (AudioEngine.clearScheduledNotes AudioEngine.engineInit) =
      AudioEngine.clearScheduledNotes AudioEngine.engineInit ∧
    AudioEngine.clearScheduledNotes AudioEngine.engineInit =
      AudioEngine.engineInit :=
  have h := schedule_clears_previous [] []
    { start := 0, endBeat := 16, enabled := false } 120 AudioEngine.engineInit
  ⟨h.1, h.2.1, h.2.2.1, h.2.2.2 rfl⟩

/-! Offline renderer, from src/audio/recorder.ts. -/

namespace Recorder

/-- The active track set of renderToWav: a track is rendered unless it is
muted, or some track has solo enabled and this one does not. -/
def recorderActiveTracks (tracks : List Track) : List Track :=
  let hasSolo := tracks.any (fun t => t.solo)
  tracks.filter (fun t => !t.muted && !(hasSolo && !t.solo))

/-- The maximum note end maxEnd computed by exportProject: fold over every
note of every track, replacing the accumulator whenever a later end exceeds
it, starting from 0. -/
def maxEnd (tracks : List Track) : ℚ :=
  tracks.foldl (fun acc t =>
    t.notes.foldl (fun m n =>
      if m < n.start + n.duration then n.start + n.duration else m) acc) 0

/-- The export duration in beats: Math.max(16, Math.ceil(maxEnd)). -/
def exportDurationBeats (tracks : List Track) : ℤ :=
  max 16 ⌈maxEnd tracks⌉

/-- The rendered window length in seconds computed by renderToWav: the
duration converted at the bpm plus 2 seconds for release tails. -/
def renderDurationSeconds (duration bpm : ℚ) : ℚ :=
  beatsToSeconds duration bpm + 2

/-- The window exportProject renders: its computed beat duration handed to
renderToWav. -/
def exportProjectSeconds (tracks : List Track) (bpm : ℚ) : ℚ :=
  renderDurationSeconds (exportDurationBeats tracks : ℚ) bpm

/-- All note ends of all tracks, flattened: a reference reformulation the
nested fold of maxEnd is checked against. -/
def noteEnds (tracks : List Track) : List ℚ :=
  (tracks.flatMap Track.notes).map (fun n => n.start + n.duration)

theorem foldl_if_eq_max (f : Note → ℚ) (l : List Note) (a : ℚ) :
    l.foldl (fun m n => if m < f n then f n else m) a =
      l.foldl (fun m n => max m (f n)) a := by
  induction l generalizing a with
  | nil => rfl
  | cons x l ih =>
      rw [List.foldl_cons, List.foldl_cons, ih]
      congr 1
      rcases lt_or_ge a (f x) with h | h
      · rw [if_pos h, max_eq_right h.le]
      · rw [if_neg (not_lt.mpr h), max_eq_left h]

theorem maxEnd_eq (tracks : List Track) :
    maxEnd tracks = (noteEnds tracks).foldl max 0 := by
  suffices hgen : ∀ acc : ℚ, tracks.foldl (fun acc t =>
      t.notes.foldl (fun m n =>
        if m < n.start + n.duration then n.start + n.duration else m) acc) acc =
      (noteEnds tracks).foldl max acc from hgen 0
  induction tracks with
  | nil => intro acc; rfl
  | cons t ts ih =>
      intro acc
      rw [List.foldl_cons]
      have hinner : t.notes.foldl (fun m n =>
          if m < n.start + n.duration then n.start + n.duration else m) acc =
          (t.notes.map (fun n => n.start + n.duration)).foldl max acc := by
        rw [List.foldl_map]
        exact foldl_if_eq_max (fun n => n.start + n.duration) t.notes acc
      rw [hinner, ih]
      unfold noteEnds
      rw [List.flatMap_cons, List.map_append, List.foldl_append]

theorem foldl_max_init_le (l : List ℚ) (b : ℚ) : b ≤ l.foldl max b := by
  induction l generalizing b with
  | nil => exact le_refl b
  | cons x l ih => exact le_trans (le_max_left b x) (ih (max b x))

theorem mem_le_foldl_max (l : List ℚ) (b a : ℚ) (h : a ∈ l) :
    a ≤ l.foldl max b := by
  induction l generalizing b with
  | nil => simp at h
  | cons x l ih =>
      rcases List.mem_cons.mp h with rfl | hmem
      · exact le_trans (le_max_right b a) (foldl_max_init_le l (max b a))
      · exact ih (max b x) hmem

end Recorder

/-- Concrete track whose single note ends at beat 1, well before 16. -/
def c1trackShort : Track :=
  { createDefaultTrack 5 "T" "#4ECDC4" with
    notes := [{ id := 0, pitch := 60, start := 0, duration := 1, velocity := 1 }] }

/-- Concrete track whose single note ends at beat 20. -/
def c1trackLong : Track :=
  { createDefaultTrack 6 "U" "#95E879" with
    notes := [{ id := 0, pitch := 60, start := 0, duration := 20, velocity := 1 }] }

/-- C1 amended: the WAV export duration in beats is the maximum of 16 and
the ceiling of the largest note end across all tracks (so 16 whenever no
track has any note, and also whenever every note ends by beat 16); every
note end fits inside it; the rendered window is that duration converted at
the project bpm plus the fixed 2 second tail; and a note ending at beat 20
yields 20 beats. -/
theorem export_duration_spec (tracks : List Track) (bpm : ℚ) :
    Recorder.exportDurationBeats tracks =
      max 16 ⌈(Recorder.noteEnds tracks).foldl max 0⌉ ∧
    (tracks.flatMap Track.notes = [] →
      Recorder.exportDurationBeats tracks = 16) ∧
    (∀ t ∈ tracks, ∀ n ∈ t.notes,
      (n.start + n.duration : ℚ) ≤ (Recorder.exportDurationBeats tracks : ℚ)) ∧
    Recorder.exportProjectSeconds tracks bpm =
      beatsToSeconds ((Recorder.exportDurationBeats tracks : ℤ) : ℚ) bpm + 2 ∧
    Recorder.exportDurationBeats [c1trackLong] = 20 := by
  refine ⟨?_, ?_, ?_, rfl, ?_⟩
  · unfold Recorder.exportDurationBeats
    rw [Recorder.maxEnd_eq]
  · intro hnil
    unfold Recorder.exportDurationBeats
    rw [Recorder.maxEnd_eq]
    unfold Recorder.noteEnds
    rw [hnil]
    simp
  · intro t ht n hn
    have hmem : (n.start + n.duration : ℚ) ∈ Recorder.noteEnds tracks := by
      unfold Recorder.noteEnds
      exact List.mem_map_of_mem _ (List.mem_flatMap.mpr ⟨t, ht, hn⟩)
    have h1 : (n.start + n.duration : ℚ) ≤ Recorder.maxEnd tracks := by
      rw [Recorder.maxEnd_eq]
      exact Recorder.mem_le_foldl_max _ 0 _ hmem
    have h2 : Recorder.maxEnd tracks ≤ (⌈Recorder.maxEnd tracks⌉ : ℚ) :=
      Int.le_ceil _
    have h3 : (⌈Recorder.maxEnd tracks⌉ : ℚ) ≤
        ((Recorder.exportDurationBeats tracks : ℤ) : ℚ) := by
      unfold Recorder.exportDurationBeats
      exact_mod_cast le_max_right 16 ⌈Recorder.maxEnd tracks⌉
    exact le_trans h1 (le_trans h2 h3)
  · have hlong : Recorder.maxEnd [c1trackLong] = 20 := by
      norm_num [Recorder.maxEnd, c1trackLong, createDefaultTrack]
    unfold Recorder.exportDurationBeats
    rw [hlong, show ⌈(20 : ℚ)⌉ = 20 from by norm_num,
      show max (16 : ℤ) 20 = 20 from max_eq_right (by norm_num)]

/-- Witness for C1 with no tracks at bpm 120. -/
theorem export_duration_spec_witness :
    Recorder.exportDurationBeats [] =
      max 16 ⌈(Recorder.noteEnds []).foldl max 0⌉ ∧
    Recorder.exportDurationBeats [] = 16 ∧
    Recorder.exportProjectSeconds [] 120 =
      beatsToSeconds ((Recorder.exportDurationBeats [] : ℤ) : ℚ) 120 + 2 :=
  have h := export_duration_spec [] 120
  ⟨h.1, h.2.1 rfl, h.2.2.2.1⟩

/-- C1 counterexample to the claim as stated: a track holding a note (so
the no-note default does not apply) whose latest end is 1 exports with a
duration of 16 beats, not the ceiling 1. -/
theorem export_duration_counterexample :
    [c1trackShort].flatMap Track.notes ≠ [] ∧
    Recorder.exportDurationBeats [c1trackShort] = 16 ∧
    (⌈Recorder.maxEnd [c1trackShort]⌉ : ℤ) = 1 ∧
    (16 : ℤ) ≠ 1 := by
  have hshort : Recorder.maxEnd [c1trackShort] = 1 := by
    norm_num [Recorder.maxEnd, c1trackShort, createDefaultTrack]
  have hceil : (⌈Recorder.maxEnd [c1trackShort]⌉ : ℤ) = 1 := by
    rw [hshort]
    norm_num
  refine ⟨by decide, ?_, hceil, by decide⟩
  unfold Recorder.exportDurationBeats
  rw [hceil, show max (16 : ℤ) 1 = 16 from max_eq_left (by norm_num)]

/-- C3: a track is in the scheduler's active set exactly when it is listed,
not muted, and solo whenever any track is solo; the offline renderer
computes the same active set; and every event scheduleNotes registers is
either the beat tick or a trigger belonging to an active track's note. -/
theorem solo_mute_active_set (tracks : List Track) (t : Track) (bpm : ℚ) :
    (t ∈ AudioEngine.engineActiveTracks tracks ↔
      t ∈ tracks ∧ t.muted = false ∧
        (tracks.any (fun u => u.solo) = true → t.solo = true)) ∧
    Recorder.recorderActiveTracks tracks = AudioEngine.engineActiveTracks tracks ∧
    (∀ ev ∈ AudioEngine.mkScheduledEvents tracks bpm,
      ev = AudioEngine.Event.tick ∨
      ∃ u ∈ AudioEngine.engineActiveTracks tracks, ∃ n ∈ u.notes,
        ev = AudioEngine.Event.trigger u.id n.pitch
          (beatsToSeconds n.start bpm) (beatsToSeconds n.duration bpm)
          n.velocity) := by
  refine ⟨?_, rfl, ?_⟩
  · cases hm : t.muted <;> cases hs : t.solo <;>
      cases ha : tracks.any (fun u => u.solo) <;>
      simp [AudioEngine.engineActiveTracks, List.mem_filter, hm, hs, ha]
  · intro ev hev
    rcases List.mem_append.mp hev with hl | hr
    · right
      rw [List.mem_flatMap] at hl
      obtain ⟨u, hu, hev2⟩ := hl
      simp only [AudioEngine.trackEvents, List.mem_map] at hev2
      obtain ⟨n, hn, rfl⟩ := hev2
      exact ⟨u, hu, n, hn, rfl⟩
    · left
      simpa using hr

/-- Track A of the spec scenario: no solo, not muted. -/
def c3A : Track := createDefaultTrack 10 "A" "#FF6B6B"

/-- Track B of the spec scenario: solo, not muted, one note. -/
def c3B : Track :=
  { createDefaultTrack 11 "B" "#4ECDC4" with
    solo := true
    notes := [{ id := 0, pitch := 60, start := 0, duration := 1, velocity := 1 }] }

/-- Track C of the spec scenario: muted. -/
def c3C : Track := { createDefaultTrack 12 "C" "#95E879" with muted := true }

/-- Witness for C3 on the scenario tracks A, B, C: only B is active. -/
theorem solo_mute_active_set_witness :
    (AudioEngine.engineActiveTracks [c3A, c3B, c3C]).map Track.id = [11] ∧
    (c3B ∈ AudioEngine.engineActiveTracks [c3A, c3B, c3C] ↔
      c3B ∈ [c3A, c3B, c3C] ∧ c3B.muted = false ∧
        ([c3A, c3B, c3C].any (fun u => u.solo) = true → c3B.solo = true)) ∧
    Recorder.recorderActiveTracks [c3A, c3B, c3C] =
      AudioEngine.engineActiveTracks [c3A, c3B, c3C] :=
  have h := solo_mute_active_set [c3A, c3B, c3C] c3B 120
  ⟨rfl, h.1, h.2.1⟩

/-- The beat total the repeating tick derives from the transport position
string bars:beats:sixteenths in scheduleNotes: bars * 4 + beats +
sixteenths / 4. -/
def tickTotalBeats (bars beats sixteenths : ℚ) : ℚ :=
  bars * 4 + beats + sixteenths / 4

/-- C10: the tick's bars-to-beats conversion multiplies bars by the
constant 4 (barsToBeats at beatsPerBar = 4) whatever the project's time
signature is, so for any other beats-per-bar value it disagrees with
barsToBeats on every nonzero bar count: with a 3/4 signature one bar is
reported as 4 beats, not 3. -/
theorem tick_constant_four (bars beats sixteenths beatsPerBar : ℚ) :
    tickTotalBeats bars beats sixteenths =
      barsToBeats bars 4 + beats + sixteenths / 4 ∧
    tickTotalBeats 1 0 0 = 4 ∧
    barsToBeats 1 3 = 3 ∧
    (beatsPerBar ≠ 4 → bars ≠ 0 →
      tickTotalBeats bars 0 0 ≠ barsToBeats bars beatsPerBar) := by
  refine ⟨rfl, by norm_num [tickTotalBeats], by norm_num [barsToBeats], ?_⟩
  intro hbpb hbars habs
  unfold tickTotalBeats barsToBeats at habs
  field_simp at habs
  rcases habs with h | h
  · exact hbpb h.symm
  · exact hbars h

/-- Witness for C10 at bars = 1, beatsPerBar = 3. -/
theorem tick_constant_four_witness :
    tickTotalBeats 1 0 0 = barsToBeats 1 4 + 0 + 0 / 4 ∧
    tickTotalBeats 1 0 0 ≠ barsToBeats 1 3 :=
  have h := tick_constant_four 1 0 0 3
  ⟨h.1, h.2.2.2 (by norm_num) (by norm_num)⟩

/-- C4 counterexample to the claim as stated for every history state: in
the reachable state reached by one undoable edit followed by one undo, the
past stack is empty but the future stack is not, so undo is a silent no-op
while redo still advances: undo immediately followed by redo changes the
visible note arrays instead of restoring them. -/
theorem undo_redo_counterexample :
    (ProjectStore.undo c4s1).hist.past = [] ∧
    (ProjectStore.undo (ProjectStore.undo c4s1)) = (ProjectStore.undo c4s1) ∧
    (ProjectStore.redo (ProjectStore.undo
        (ProjectStore.undo c4s1))).tracks.map Track.notes ≠
      (ProjectStore.undo c4s1).tracks.map Track.notes := by
  refine ⟨by decide, rfl, by decide⟩
